import Mathlib

/-!
Shallow embedding of the ferrum runtime's permission system
(src/permissions.rs) and ES module loader (src/module_loader.rs),
with theorems checking the natural-language specification against it.

Rust strings are modelled as Lean `String`s, with character-level
operations carried out on `String.data` (`List Char`); `HashSet<String>`
becomes `List String` (membership-only use), and `HashMap` an
association list.  Fallible operations return `Except`.
-/

namespace Ferrum

/-- Rust `str::starts_with`: `pre` is a textual prefix of `s`. -/
def starts_with (s pre : String) : Bool :=
  pre.data.isPrefixOf s.data

/-- Single-quote character, used by the Rust error messages. -/
def sq : String :=
  String.mk [Char.ofNat 39]

/-- PermissionError from src/permissions.rs (thiserror enum). -/
inductive PermissionError
  | denied (msg : String)
  | invalidPath (msg : String)
  | invalidAddress (msg : String)
deriving DecidableEq

/-- Display of a PermissionError, following the thiserror format strings. -/
def PermissionError.toMessage : PermissionError → String
  | .denied m => "Permission denied: " ++ m
  | .invalidPath m => "Invalid permission path: " ++ m
  | .invalidAddress m => "Invalid net address: " ++ m

/-- PermissionState from src/permissions.rs: Granted, GrantedPartial
with an allow-set (here a list, used only through membership), Denied,
and PromptPending. -/
inductive PermissionState
  | granted
  | grantedPartial (paths : List String)
  | denied
  | promptPending
deriving DecidableEq

/-- PermissionState::is_granted: Granted accepts everything, Denied and
PromptPending nothing; GrantedPartial accepts a present resource that is
in the set or that has some set entry as a textual prefix. -/
def PermissionState.is_granted : PermissionState → Option String → Bool
  | .granted, _ => true
  | .denied, _ => false
  | .promptPending, _ => false
  | .grantedPartial paths, some check_path =>
      paths.contains check_path || paths.any (fun p => starts_with check_path p)
  | .grantedPartial _, none => false

/-- ReadPermission from src/permissions.rs. -/
structure ReadPermission where
  state : PermissionState
deriving DecidableEq

/-- ReadPermission::new (default: denied). -/
def ReadPermission.new : ReadPermission :=
  ⟨.denied⟩

/-- ReadPermission::grant_all. -/
def ReadPermission.grant_all (_p : ReadPermission) : ReadPermission :=
  ⟨.granted⟩

/-- ReadPermission::grant_paths. -/
def ReadPermission.grant_paths (_p : ReadPermission) (paths : List String) : ReadPermission :=
  ⟨.grantedPartial paths⟩

/-- ReadPermission::check. -/
def ReadPermission.check (p : ReadPermission) (path : String) : Except PermissionError Unit :=
  if p.state.is_granted (some path) then .ok ()
  else .error (.denied ("Requires read access to " ++ sq ++ path ++ sq))

/-- WritePermission from src/permissions.rs. -/
structure WritePermission where
  state : PermissionState
deriving DecidableEq

/-- WritePermission::new (default: denied). -/
def WritePermission.new : WritePermission :=
  ⟨.denied⟩

/-- WritePermission::grant_all. -/
def WritePermission.grant_all (_p : WritePermission) : WritePermission :=
  ⟨.granted⟩

/-- WritePermission::grant_paths. -/
def WritePermission.grant_paths (_p : WritePermission) (paths : List String) : WritePermission :=
  ⟨.grantedPartial paths⟩

/-- WritePermission::check. -/
def WritePermission.check (p : WritePermission) (path : String) : Except PermissionError Unit :=
  if p.state.is_granted (some path) then .ok ()
  else .error (.denied ("Requires write access to " ++ sq ++ path ++ sq))

/-- NetPermission from src/permissions.rs. -/
structure NetPermission where
  state : PermissionState
deriving DecidableEq

/-- NetPermission::new (default: denied). -/
def NetPermission.new : NetPermission :=
  ⟨.denied⟩

/-- NetPermission::grant_all. -/
def NetPermission.grant_all (_p : NetPermission) : NetPermission :=
  ⟨.granted⟩

/-- NetPermission::grant_addresses. -/
def NetPermission.grant_addresses (_p : NetPermission) (addresses : List String) : NetPermission :=
  ⟨.grantedPartial addresses⟩

/-- NetPermission::check. -/
def NetPermission.check (p : NetPermission) (address : String) : Except PermissionError Unit :=
  if p.state.is_granted (some address) then .ok ()
  else .error (.denied ("Requires network access to " ++ sq ++ address ++ sq))

/-- EnvPermission from src/permissions.rs. -/
structure EnvPermission where
  state : PermissionState
deriving DecidableEq

/-- EnvPermission::new (default: denied). -/
def EnvPermission.new : EnvPermission :=
  ⟨.denied⟩

/-- EnvPermission::grant_all. -/
def EnvPermission.grant_all (_p : EnvPermission) : EnvPermission :=
  ⟨.granted⟩

/-- EnvPermission::grant_vars. -/
def EnvPermission.grant_vars (_p : EnvPermission) (vars : List String) : EnvPermission :=
  ⟨.grantedPartial vars⟩

/-- EnvPermission::check. -/
def EnvPermission.check (p : EnvPermission) (var : String) : Except PermissionError Unit :=
  if p.state.is_granted (some var) then .ok ()
  else .error (.denied ("Requires access to environment variable " ++ sq ++ var ++ sq))

/-- RunPermission from src/permissions.rs. -/
structure RunPermission where
  state : PermissionState
deriving DecidableEq

/-- RunPermission::new (default: denied). -/
def RunPermission.new : RunPermission :=
  ⟨.denied⟩

/-- RunPermission::grant_all. -/
def RunPermission.grant_all (_p : RunPermission) : RunPermission :=
  ⟨.granted⟩

/-- RunPermission::grant_commands. -/
def RunPermission.grant_commands (_p : RunPermission) (commands : List String) : RunPermission :=
  ⟨.grantedPartial commands⟩

/-- RunPermission::check. -/
def RunPermission.check (p : RunPermission) (command : String) : Except PermissionError Unit :=
  if p.state.is_granted (some command) then .ok ()
  else .error (.denied ("Requires permission to run " ++ sq ++ command ++ sq))

/-- Permissions: the aggregate of the five categories. -/
structure Permissions where
  read : ReadPermission
  write : WritePermission
  net : NetPermission
  env : EnvPermission
  run : RunPermission
deriving DecidableEq

/-- Permissions::default: every category denied. -/
def Permissions.mkDefault : Permissions :=
  ⟨.new, .new, .new, .new, .new⟩

/-- Permissions::allow_all: every category granted. -/
def Permissions.allow_all : Permissions :=
  ⟨⟨.granted⟩, ⟨.granted⟩, ⟨.granted⟩, ⟨.granted⟩, ⟨.granted⟩⟩

/-- Permissions::check_read. -/
def Permissions.check_read (ps : Permissions) (path : String) : Except PermissionError Unit :=
  ps.read.check path

/-- Permissions::check_write. -/
def Permissions.check_write (ps : Permissions) (path : String) : Except PermissionError Unit :=
  ps.write.check path

/-- Permissions::check_net. -/
def Permissions.check_net (ps : Permissions) (address : String) : Except PermissionError Unit :=
  ps.net.check address

/-- Permissions::check_env. -/
def Permissions.check_env (ps : Permissions) (var : String) : Except PermissionError Unit :=
  ps.env.check var

/-- Permissions::check_run. -/
def Permissions.check_run (ps : Permissions) (command : String) : Except PermissionError Unit :=
  ps.run.check command

/-- ImportMapEntry from src/module_loader.rs; `pfx` stands for the Rust
field `prefix` (a Lean keyword). -/
structure ImportMapEntry where
  pfx : String
  target : String
deriving DecidableEq

/-- Stable insertion of an entry after every entry whose prefix is at
least as long. -/
def insEntry (e : ImportMapEntry) : List ImportMapEntry → List ImportMapEntry
  | [] => [e]
  | x :: xs => if e.pfx.length ≤ x.pfx.length then x :: insEntry e xs else e :: x :: xs

/-- Stable sort by descending prefix length.  Rust's
`sort_by(|a, b| b.prefix.len().cmp(&a.prefix.len()))` is a stable sort,
and any stable sort over the same key is extensionally this insertion
sort. -/
def sortByLenDesc (l : List ImportMapEntry) : List ImportMapEntry :=
  l.foldl (fun acc e => insEntry e acc) []

/-- ImportMap from src/module_loader.rs. -/
structure ImportMap where
  entries : List ImportMapEntry
  base_url : String
deriving DecidableEq

/-- ImportMap::new. -/
def ImportMap.new (base_url : String) : ImportMap :=
  ⟨[], base_url⟩

/-- ImportMap::insert: push the entry, then re-sort the entry list by
descending prefix length. -/
def ImportMap.insert (m : ImportMap) (p t : String) : ImportMap :=
  { m with entries := sortByLenDesc (m.entries ++ [⟨p, t⟩]) }

/-- Linear scan of ImportMap::resolve: the first entry whose prefix
textually matches wins, the target replaces the matched prefix. -/
def resolveEntries : List ImportMapEntry → String → Option String
  | [], _ => none
  | e :: rest, specifier =>
      if starts_with specifier e.pfx then
        some (e.target ++ String.mk (specifier.data.drop e.pfx.length))
      else resolveEntries rest specifier

/-- ImportMap::resolve. -/
def ImportMap.resolve (m : ImportMap) (specifier : String) : Option String :=
  resolveEntries m.entries specifier

/-- Descending-length order on import-map entries. -/
def entryLenGE (a b : ImportMapEntry) : Prop :=
  b.pfx.length ≤ a.pfx.length

/-- Members of a stable insertion are the new entry and the old members. -/
theorem mem_insEntry (e y : ImportMapEntry) (l : List ImportMapEntry) :
    y ∈ insEntry e l ↔ y = e ∨ y ∈ l := by
  induction l with
  | nil => simp [insEntry]
  | cons x xs ih =>
      simp only [insEntry]
      split <;> simp [List.mem_cons, ih] <;> tauto

/-- Stable insertion preserves the descending-length invariant. -/
theorem insEntry_pairwise (e : ImportMapEntry) (l : List ImportMapEntry)
    (hl : l.Pairwise entryLenGE) : (insEntry e l).Pairwise entryLenGE := by
  induction l with
  | nil => simp [insEntry, entryLenGE]
  | cons x xs ih =>
      rcases List.pairwise_cons.mp hl with ⟨hx, hxs⟩
      by_cases h : e.pfx.length ≤ x.pfx.length
      · simp only [insEntry, if_pos h]
        refine List.pairwise_cons.mpr ⟨?_, ih hxs⟩
        intro y hy
        rcases (mem_insEntry e y xs).mp hy with rfl | hy2
        · exact h
        · exact hx y hy2
      · simp only [insEntry, if_neg h]
        refine List.pairwise_cons.mpr ⟨?_, hl⟩
        intro y hy
        rcases List.mem_cons.mp hy with rfl | hy2
        · exact Nat.le_of_lt (Nat.lt_of_not_le h)
        · exact Nat.le_trans (hx y hy2) (Nat.le_of_lt (Nat.lt_of_not_le h))

/-- Folding stable insertions keeps the accumulator sorted. -/
theorem foldl_insEntry_pairwise (l acc : List ImportMapEntry)
    (hacc : acc.Pairwise entryLenGE) :
    (l.foldl (fun a e => insEntry e a) acc).Pairwise entryLenGE := by
  induction l generalizing acc with
  | nil => simpa using hacc
  | cons e rest ih => exact ih (insEntry e acc) (insEntry_pairwise e acc hacc)

/-- Stability of the insertion at one length class: on a sorted list, the
inserted entry goes to the end of its equal-length class. -/
theorem filter_insEntry (e : ImportMapEntry) (l : List ImportMapEntry)
    (hl : l.Pairwise entryLenGE) (k : Nat) :
    (insEntry e l).filter (fun x => x.pfx.length == k) =
      l.filter (fun x => x.pfx.length == k) ++
        (if e.pfx.length = k then [e] else []) := by
  induction l with
  | nil =>
      by_cases hek : e.pfx.length = k <;>
        simp [insEntry, List.filter_cons, beq_iff_eq, hek]
  | cons x xs ih =>
      rcases List.pairwise_cons.mp hl with ⟨hx, hxs⟩
      by_cases h : e.pfx.length ≤ x.pfx.length
      · simp only [insEntry, if_pos h, List.filter_cons, ih hxs]
        by_cases hxk : x.pfx.length = k <;> simp [beq_iff_eq, hxk]
      · have hlt := Nat.lt_of_not_le h
        by_cases hek : e.pfx.length = k
        · have hxk : ¬ x.pfx.length = k := by omega
          have hxsnil : xs.filter (fun y => y.pfx.length == k) = [] := by
            refine List.filter_eq_nil_iff.mpr ?_
            intro y hy
            have hyx : y.pfx.length ≤ x.pfx.length := hx y hy
            simp only [beq_iff_eq]
            omega
          simp only [insEntry]
          rw [if_neg h]
          simp [List.filter_cons, beq_iff_eq, hek, hxk, hxsnil]
        · simp only [insEntry]
          rw [if_neg h]
          simp [List.filter_cons, beq_iff_eq, hek]

/-- Sorting stably does not change any equal-length class. -/
theorem filter_foldl_insEntry (l acc : List ImportMapEntry)
    (hacc : acc.Pairwise entryLenGE) (k : Nat) :
    (l.foldl (fun a e => insEntry e a) acc).filter (fun x => x.pfx.length == k) =
      acc.filter (fun x => x.pfx.length == k) ++
        l.filter (fun x => x.pfx.length == k) := by
  induction l generalizing acc with
  | nil => simp
  | cons e rest ih =>
      have h1 := ih (insEntry e acc) (insEntry_pairwise e acc hacc)
      simp only [List.foldl_cons] at *
      rw [h1, filter_insEntry e acc hacc k, List.filter_cons]
      by_cases hek : e.pfx.length = k <;> simp [beq_iff_eq, hek]

/-- Resolution scans the sorted list for the first textual prefix match. -/
theorem resolveEntries_eq_find (l : List ImportMapEntry) (s : String) :
    resolveEntries l s =
      (l.find? (fun e => starts_with s e.pfx)).map
        (fun e => e.target ++ String.mk (s.data.drop e.pfx.length)) := by
  induction l with
  | nil => simp [resolveEntries]
  | cons e rest ih =>
      by_cases h : starts_with s e.pfx
      · simp [resolveEntries, List.find?, h]
      · simp only [resolveEntries, List.find?] at *
        simp only [h]
        simpa using ih

/-- C6: after every insert the entry list is sorted by descending prefix
length; the sort is stable (each equal-length class equals that class of
the pushed list, preserving insertion order); resolve takes the first
match in that order, appending the unmatched suffix to the target; on
entries a/ to X and a/b/ to Y, a/b/c resolves to Yc, the longest prefix,
not to Xb/c. -/
theorem import_map_sorted_stable_longest_match :
    (∀ (m : ImportMap) (p t : String),
        ((m.insert p t).entries).Pairwise entryLenGE) ∧
    (∀ (m : ImportMap) (p t : String) (k : Nat),
        ((m.insert p t).entries).filter (fun e => e.pfx.length == k) =
          (m.entries ++ [ImportMapEntry.mk p t]).filter (fun e => e.pfx.length == k)) ∧
    (∀ (m : ImportMap) (s : String),
        m.resolve s =
          (m.entries.find? (fun e => starts_with s e.pfx)).map
            (fun e => e.target ++ String.mk (s.data.drop e.pfx.length))) ∧
    (((ImportMap.new "").insert "a/" "X").insert "a/b/" "Y").resolve "a/b/c" =
        some "Yc" ∧
    (((ImportMap.new "").insert "a/" "X").insert "a/b/" "Y").resolve "a/b/c" ≠
        some "Xb/c" := by
  refine ⟨?_, ?_, ?_, by decide, by decide⟩
  · intro m p t
    exact foldl_insEntry_pairwise _ [] (List.Pairwise.nil)
  · intro m p t k
    have h := filter_foldl_insEntry (m.entries ++ [ImportMapEntry.mk p t]) [] List.Pairwise.nil k
    simpa [ImportMap.insert, sortByLenDesc, List.filter_append] using h
  · intro m s
    exact resolveEntries_eq_find m.entries s

/-- True when a character list starts with the path separator. -/
def startsWithSlash : List Char → Bool
  | [] => false
  | c :: _ => c = '/'

/-- Split a path on the separator, dropping empty pieces; this is the
piece structure of Rust's Path::components for a Unix path (no prefix
component). -/
def splitPathAux (acc : List Char) : List Char → List (List Char)
  | [] => if acc.isEmpty then [] else [acc.reverse]
  | c :: rest =>
      if c = '/' then
        if acc.isEmpty then splitPathAux [] rest
        else acc.reverse :: splitPathAux [] rest
      else splitPathAux (c :: acc) rest

/-- Pieces of a path between separators. -/
def splitPath (cs : List Char) : List (List Char) :=
  splitPathAux [] cs

/-- Path components, as in std::path::Component. -/
inductive PathComp
  | rootDir
  | curDir
  | parentDir
  | normal (name : List Char)
deriving DecidableEq

/-- Classify one piece as a component. -/
def pieceToComp (s : List Char) : PathComp :=
  if s = ['.'] then .curDir
  else if s = ['.', '.'] then .parentDir
  else .normal s

/-- Component list of a path (Rust Path::components): an optional leading
RootDir, then the classified pieces. -/
def pathComponents (cs : List Char) : List PathComp :=
  let comps := (splitPath cs).map pieceToComp
  if startsWithSlash cs then PathComp.rootDir :: comps else comps

/-- One step of the component loop of normalize_path in
src/module_loader.rs: ParentDir pops the last pushed component when the
stack is nonempty (this can pop a pushed RootDir), Normal and RootDir are
pushed, CurDir and Prefix are skipped. -/
def normStep (components : List PathComp) : PathComp → List PathComp
  | .parentDir => if components.isEmpty then components else components.dropLast
  | .curDir => components
  | .rootDir => components ++ [PathComp.rootDir]
  | .normal s => components ++ [PathComp.normal s]

/-- Name a component contributes to the rendered PathBuf. -/
def compName : PathComp → List Char
  | .rootDir => []
  | .curDir => ['.']
  | .parentDir => ['.', '.']
  | .normal s => s

/-- Join pieces with the separator. -/
def joinSlash : List (List Char) → List Char
  | [] => []
  | [p] => p
  | p :: q :: rest => p ++ '/' :: joinSlash (q :: rest)

/-- Render the final component stack as PathBuf rendering does: a leading
RootDir contributes the separator, the remaining names are joined with
separators. -/
def renderComps : List PathComp → List Char
  | PathComp.rootDir :: rest => '/' :: joinSlash (rest.map compName)
  | comps => joinSlash (comps.map compName)

/-- Character-level normalize_path from src/module_loader.rs: fold the
components through the stack machine, render, and put the separator back
in front when the input was absolute but the rendered text is not. -/
def normalizeChars (cs : List Char) : List Char :=
  let components := (pathComponents cs).foldl normStep []
  let path_str := renderComps components
  if startsWithSlash cs && !(startsWithSlash path_str) then '/' :: path_str else path_str

/-- The normalize_path function of src/module_loader.rs. -/
def normalize_path (path : String) : String :=
  String.mk (normalizeChars path.data)

/-- One step of the stack machine in the words of the spec (section 4.3):
each .. pops the most recently pushed component, a no-op on an empty
stack; each . is dropped; all other components are pushed; the absolute
marker is handled separately. -/
def specNormStep (stack : List (List Char)) : PathComp → List (List Char)
  | .parentDir => stack.dropLast
  | .curDir => stack
  | .rootDir => stack
  | .normal s => stack ++ [s]

/-- Path normalization stated from the spec's words: run the stack
machine over the components and preserve a leading absolute marker. -/
def specNormalize (path : String) : String :=
  String.mk
    ((if startsWithSlash path.data then ['/'] else []) ++
      joinSlash ((pathComponents path.data).foldl specNormStep []))

/-- Pieces produced by the splitter are nonempty and separator-free. -/
theorem splitPathAux_pieces (cs : List Char) :
    ∀ acc : List Char, '/' ∉ acc →
      ∀ p ∈ splitPathAux acc cs, p ≠ [] ∧ '/' ∉ p := by
  induction cs with
  | nil =>
      intro acc hacc p hp
      by_cases h : acc.isEmpty
      · rw [splitPathAux, if_pos h] at hp
        simp at hp
      · rw [splitPathAux, if_neg h] at hp
        rw [List.mem_singleton] at hp
        subst hp
        constructor
        · simpa [List.isEmpty_iff] using h
        · simpa using hacc
  | cons c rest ih =>
      intro acc hacc p hp
      by_cases hc : c = '/'
      · rw [splitPathAux, if_pos hc] at hp
        by_cases h : acc.isEmpty
        · rw [if_pos h] at hp
          exact ih [] (by simp) p hp
        · rw [if_neg h, List.mem_cons] at hp
          rcases hp with hp1 | hp2
          · subst hp1
            constructor
            · simpa [List.isEmpty_iff] using h
            · simpa using hacc
          · exact ih [] (by simp) p hp2
      · rw [splitPathAux, if_neg hc] at hp
        refine ih (c :: acc) ?_ p hp
        intro hmem
        rcases List.mem_cons.mp hmem with h1 | h2
        · exact hc h1.symm
        · exact hacc h2

/-- Pieces of a split path are nonempty and separator-free. -/
theorem splitPath_pieces (cs : List Char) :
    ∀ p ∈ splitPath cs, p ≠ [] ∧ '/' ∉ p :=
  splitPathAux_pieces cs [] (by simp)

/-- Classified pieces are never the root component. -/
theorem pieceToComp_ne_root (s : List Char) : pieceToComp s ≠ PathComp.rootDir := by
  unfold pieceToComp
  split_ifs <;> simp

/-- Names recovered from Normal components. -/
theorem map_compName_normals (l : List (List Char)) :
    (l.map PathComp.normal).map compName = l := by
  induction l with
  | nil => rfl
  | cons s t ih => simp [compName, ih]

/-- Rendering a stack of Normal components joins their names. -/
theorem renderComps_normals (l : List (List Char)) :
    renderComps (l.map PathComp.normal) = joinSlash l := by
  cases l with
  | nil => rfl
  | cons s t =>
      show joinSlash (((s :: t).map PathComp.normal).map compName) = joinSlash (s :: t)
      rw [map_compName_normals]

/-- On root-free component lists, the code's stack is the spec's stack
with each name wrapped in Normal. -/
theorem foldl_normStep_no_root (comps : List PathComp)
    (h : ∀ c ∈ comps, c ≠ PathComp.rootDir) :
    ∀ stack : List (List Char),
      List.foldl normStep (stack.map PathComp.normal) comps =
        (List.foldl specNormStep stack comps).map PathComp.normal := by
  induction comps with
  | nil => intro stack; rfl
  | cons c rest ih =>
      intro stack
      have hrest : ∀ x ∈ rest, x ≠ PathComp.rootDir := fun x hx => h x (List.mem_cons_of_mem c hx)
      cases c with
      | rootDir => exact absurd rfl (h .rootDir (List.mem_cons_self _ _))
      | curDir => simpa [normStep, specNormStep] using ih hrest stack
      | parentDir =>
          cases stack with
          | nil => simpa [normStep, specNormStep] using ih hrest []
          | cons s0 s1 =>
              have hne : ((s0 :: s1).map PathComp.normal).isEmpty = false := by simp
              simp only [List.foldl_cons, normStep, specNormStep, hne, Bool.false_eq_true,
                if_false, ← List.map_dropLast]
              exact ih hrest _
      | normal s =>
          have h1 : normStep (stack.map PathComp.normal) (PathComp.normal s) =
              (stack ++ [s]).map PathComp.normal := by
            simp [normStep]
          simp only [List.foldl_cons, h1, specNormStep]
          exact ih hrest _

/-- ParentDir pops the last element of a nonempty stack. -/
theorem normStep_parentDir_cons (a : PathComp) (l : List PathComp) :
    normStep (a :: l) PathComp.parentDir = (a :: l).dropLast := by
  simp [normStep]

/-- With a RootDir at the bottom of the code's stack, the code's stack is
the spec's stack with the root still at the bottom or already popped. -/
theorem foldl_normStep_root (comps : List PathComp)
    (h : ∀ c ∈ comps, c ≠ PathComp.rootDir) :
    ∀ stack : List (List Char),
      List.foldl normStep (PathComp.rootDir :: stack.map PathComp.normal) comps =
          PathComp.rootDir :: (List.foldl specNormStep stack comps).map PathComp.normal ∨
        List.foldl normStep (PathComp.rootDir :: stack.map PathComp.normal) comps =
          (List.foldl specNormStep stack comps).map PathComp.normal := by
  induction comps with
  | nil => intro stack; exact Or.inl rfl
  | cons c rest ih =>
      intro stack
      have hrest : ∀ x ∈ rest, x ≠ PathComp.rootDir := fun x hx => h x (List.mem_cons_of_mem c hx)
      cases c with
      | rootDir => exact absurd rfl (h .rootDir (List.mem_cons_self _ _))
      | curDir => simpa [normStep, specNormStep] using ih hrest stack
      | parentDir =>
          cases stack with
          | nil =>
              refine Or.inr ?_
              have h1 : normStep [PathComp.rootDir] PathComp.parentDir = ([] : List PathComp) := by
                simp [normStep]
              simp only [List.foldl_cons, List.map_nil, h1, specNormStep, List.dropLast_nil]
              simpa using foldl_normStep_no_root rest hrest []
          | cons s0 s1 =>
              have h1 : normStep (PathComp.rootDir :: (s0 :: s1).map PathComp.normal)
                  PathComp.parentDir =
                  PathComp.rootDir :: ((s0 :: s1).dropLast).map PathComp.normal := by
                rw [normStep_parentDir_cons, List.map_dropLast, List.map_cons]
                exact List.dropLast_cons₂
              simp only [List.foldl_cons, h1, specNormStep]
              exact ih hrest _
      | normal s =>
          have h1 : normStep (PathComp.rootDir :: stack.map PathComp.normal)
              (PathComp.normal s) =
              PathComp.rootDir :: (stack ++ [s]).map PathComp.normal := by
            simp [normStep]
          simp only [List.foldl_cons, h1, specNormStep]
          exact ih hrest _

/-- Each name on the spec's final stack was on the initial stack or came
from a Normal component of the input. -/
theorem mem_foldl_specNormStep (comps : List PathComp) :
    ∀ stack : List (List Char), ∀ p ∈ List.foldl specNormStep stack comps,
      p ∈ stack ∨ PathComp.normal p ∈ comps := by
  induction comps with
  | nil => intro stack p hp; exact Or.inl hp
  | cons c rest ih =>
      intro stack p hp
      rcases ih (specNormStep stack c) p (by simpa using hp) with h1 | h2
      · cases c with
        | parentDir => exact Or.inl ((List.dropLast_sublist stack).subset h1)
        | curDir => exact Or.inl h1
        | rootDir => exact Or.inl h1
        | normal s =>
            rcases List.mem_append.mp h1 with h3 | h3
            · exact Or.inl h3
            · right
              simp only [List.mem_singleton] at h3
              subst h3
              exact List.mem_cons_self _ _
      · exact Or.inr (List.mem_cons_of_mem c h2)

/-- Joining pieces keeps the head of a nonempty first piece. -/
theorem startsWithSlash_joinSlash (p : List Char) (t : List (List Char)) (hp : p ≠ []) :
    startsWithSlash (joinSlash (p :: t)) = startsWithSlash p := by
  cases t with
  | nil => rfl
  | cons q r =>
      show startsWithSlash (p ++ '/' :: joinSlash (q :: r)) = startsWithSlash p
      cases p with
      | nil => exact absurd rfl hp
      | cons c cs => rfl

/-- C8 equivalence of the code's normalize_path with the spec's stack
machine over path components. -/
theorem normalize_path_eq_spec (path : String) :
    normalize_path path = specNormalize path := by
  have hpieces := splitPath_pieces path.data
  have hnoroot : ∀ c ∈ (splitPath path.data).map pieceToComp, c ≠ PathComp.rootDir := by
    intro c hc
    rcases List.mem_map.mp hc with ⟨q, _, rfl⟩
    exact pieceToComp_ne_root q
  have key : normalizeChars path.data =
      (if startsWithSlash path.data then ['/'] else []) ++
        joinSlash ((pathComponents path.data).foldl specNormStep []) := by
    unfold normalizeChars
    dsimp only
    by_cases habs : startsWithSlash path.data
    · have hcomps : pathComponents path.data =
          PathComp.rootDir :: (splitPath path.data).map pieceToComp := by
        simp [pathComponents, habs]
      rw [hcomps]
      have hstep : List.foldl normStep [] (PathComp.rootDir ::
          (splitPath path.data).map pieceToComp) =
          List.foldl normStep (PathComp.rootDir :: ([] : List (List Char)).map PathComp.normal)
            ((splitPath path.data).map pieceToComp) := rfl
      have hspecstep : List.foldl specNormStep [] (PathComp.rootDir ::
          (splitPath path.data).map pieceToComp) =
          List.foldl specNormStep [] ((splitPath path.data).map pieceToComp) := rfl
      rw [hstep, hspecstep]
      rcases foldl_normStep_root _ hnoroot [] with hroot | hroot
      · rw [hroot]
        have hr : renderComps (PathComp.rootDir ::
            (List.foldl specNormStep [] ((splitPath path.data).map pieceToComp)).map
              PathComp.normal) =
            '/' :: joinSlash (List.foldl specNormStep []
              ((splitPath path.data).map pieceToComp)) := by
          show '/' :: joinSlash _ = _
          rw [map_compName_normals]
        rw [hr, habs]
        rfl
      · rw [hroot, renderComps_normals]
        have hgood : ∀ p ∈ List.foldl specNormStep []
            ((splitPath path.data).map pieceToComp), p ≠ [] ∧ '/' ∉ p := by
          intro p hp
          rcases mem_foldl_specNormStep _ [] p hp with h1 | h2
          · simp at h1
          · rcases List.mem_map.mp h2 with ⟨q, hq, heq⟩
            have := hpieces q hq
            unfold pieceToComp at heq
            split_ifs at heq with h3 h4
            all_goals cases heq
            exact this
        cases hS : List.foldl specNormStep [] ((splitPath path.data).map pieceToComp) with
        | nil =>
            rw [habs]
            rfl
        | cons p t =>
            have hp := hgood p (by rw [hS]; exact List.mem_cons_self _ _)
            have hsw : startsWithSlash (joinSlash (p :: t)) = false := by
              rw [startsWithSlash_joinSlash p t hp.1]
              cases p with
              | nil => exact absurd rfl hp.1
              | cons c cs =>
                  have : c ≠ '/' := fun hcc => hp.2 (hcc ▸ List.mem_cons_self _ _)
                  simpa [startsWithSlash] using this
            rw [hsw]
            simp [habs]
    · have hcomps : pathComponents path.data = (splitPath path.data).map pieceToComp := by
        simp [pathComponents, habs]
      rw [hcomps]
      have h0 : List.foldl normStep [] ((splitPath path.data).map pieceToComp) =
          (List.foldl specNormStep [] ((splitPath path.data).map pieceToComp)).map
            PathComp.normal := by
        simpa using foldl_normStep_no_root _ hnoroot []
      rw [h0, renderComps_normals]
      simp [habs]
  unfold normalize_path specNormalize
  rw [key]

example : normalize_path "/home/user/./utils.js" = "/home/user/utils.js" := by decide
example : normalize_path "/home/user/../shared/lib.js" = "/home/shared/lib.js" := by decide
example : normalize_path "/../a" = "/a" := by decide
example : normalize_path "/a/../.." = "/" := by decide
example : normalize_path "a/../../b" = "b" := by decide
example : specNormalize "/a/../.." = "/" := by decide

/-- ModuleError from src/module_loader.rs. -/
inductive ModuleError
  | notFound (s : String)
  | resolutionError (s : String)
  | parseError (s : String)
  | permissionDenied (s : String)
  | networkError (s : String)
  | circularDependency (s : String)
  | invalidSpecifier (s : String)
deriving DecidableEq

/-- ModuleType from src/module_loader.rs. -/
inductive ModuleType
  | esModule
  | commonJS
  | json
  | typeScript
  | unknown
deriving DecidableEq

/-- Rust str::to_lowercase on the ASCII inputs that occur here,
character by character (String.toLower does not reduce in the kernel). -/
def strToLower (s : String) : String :=
  String.mk (s.data.map Char.toLower)

/-- ModuleType::from_extension: lowercase the argument and match it, dot
included, against the known extensions. -/
def ModuleType.from_extension (ext : String) : ModuleType :=
  let e := strToLower ext
  if e = ".mjs" then .esModule
  else if e = ".cjs" then .commonJS
  else if e = ".json" then .json
  else if e = ".ts" then .typeScript
  else if e = ".js" then .esModule
  else .unknown

/-- ModuleSource from src/module_loader.rs. -/
structure ModuleSource where
  specifier : String
  code : String
  module_type : ModuleType
deriving DecidableEq

/-- ResolvedModule from src/module_loader.rs. -/
structure ResolvedModule where
  specifier : String
  source : ModuleSource
  dependencies : List String
deriving DecidableEq

/-- Environment abstracting the external collaborators used by the
loader: the file system (std::fs), the JSON parser applied to a
package.json body to extract its main field (serde_json), and the URL
parser yielding a host name (the url crate).  None of these is code of
this repository. -/
structure FsEnv where
  readFile : String → Except String String
  fileExists : String → Bool
  jsonMain : String → Option String
  urlParseOk : String → Bool
  urlHost : String → Option String

/-- Split on a separator keeping empty pieces (Rust str::split). -/
def splitAllAux (sep : Char) (acc : List Char) : List Char → List (List Char)
  | [] => [acc.reverse]
  | c :: rest =>
      if c = sep then acc.reverse :: splitAllAux sep [] rest
      else splitAllAux sep (c :: acc) rest

/-- Pieces of a character list around a separator, empties kept. -/
def splitAll (sep : Char) (cs : List Char) : List (List Char) :=
  splitAllAux sep [] cs

/-- Rust str::trim_start_matches applied to the piece "./": strip every
leading repetition. -/
def trimDotSlash : List Char → List Char
  | '.' :: '/' :: rest => trimDotSlash rest
  | cs => cs

/-- Rust Path::parent rendered as a string: drop the final component;
None when there is no component to drop. -/
def parentPath (s : String) : Option String :=
  let names := splitPath s.data
  if names.isEmpty then none
  else
    some (String.mk
      ((if startsWithSlash s.data then ['/'] else []) ++ joinSlash names.dropLast))

/-- Rust PathBuf::push / Path::join of a trailing component: an absolute
component replaces the base, otherwise the base gets a separator when it
needs one. -/
def joinPath (dir spec : String) : String :=
  if startsWithSlash spec.data then spec
  else if dir.data.isEmpty then spec
  else if dir.data.getLast? = some '/' then dir ++ spec
  else dir ++ "/" ++ spec

/-- Characters after the last dot of a name, when a dot exists. -/
def afterLastDot : List Char → Option (List Char)
  | [] => none
  | c :: rest =>
      match afterLastDot rest with
      | some e => some e
      | none => if c = '.' then some rest else none

/-- Rust Path::extension: the part of the final component after its last
dot, where a single leading dot (hidden file) does not count and the
components . and .. have no extension; the result has NO leading dot. -/
def pathExtension (path : String) : Option String :=
  match (splitPath path.data).getLast? with
  | none => none
  | some name =>
      if name = ['.'] || name = ['.', '.'] then none
      else
        match name with
        | '.' :: rest => (afterLastDot rest).map String.mk
        | _ => (afterLastDot name).map String.mk

/-- Elements of the three dependency regexes of parse_dependencies in
src/module_loader.rs: literal text, greedy one-or-more whitespace,
greedy any-amount whitespace, lazy any-characters-but-newline, a single
quote character of either kind, and the greedy one-or-more
non-quote-characters capture group. -/
inductive RElem
  | lit (s : List Char)
  | wsPlus
  | wsStar
  | lazyAny
  | quoteCh
  | capSpec
deriving DecidableEq

/-- Regex whitespace class (ASCII part, all the inputs used here). -/
def isWs (c : Char) : Bool :=
  c = ' ' || c = '\t' || c = '\n' || c = '\r' || c = Char.ofNat 11 || c = Char.ofNat 12

/-- Either quote character. -/
def isQuote (c : Char) : Bool :=
  c = '"' || c = Char.ofNat 39

/-- Length of the run of characters satisfying a class at the front. -/
def countLeading (p : Char → Bool) : List Char → Nat
  | [] => 0
  | c :: rest => if p c then countLeading p rest + 1 else 0

/-- Candidate (capture, consumed-length) pairs of one regex element on a
suffix, in backtracking priority order: greedy classes longest first,
the lazy class shortest first. -/
def candidates : RElem → List Char → List (Option (List Char) × Nat)
  | .lit s, cs => if s.isPrefixOf cs then [(none, s.length)] else []
  | .wsPlus, cs =>
      let k := countLeading isWs cs
      (List.range k).map (fun i => (none, k - i))
  | .wsStar, cs =>
      let k := countLeading isWs cs
      (List.range (k + 1)).map (fun i => (none, k - i))
  | .lazyAny, cs =>
      let m := countLeading (fun c => !(c = '\n')) cs
      (List.range (m + 1)).map (fun i => (none, i))
  | .quoteCh, [] => []
  | .quoteCh, c :: _ => if isQuote c then [(none, 1)] else []
  | .capSpec, cs =>
      let k := countLeading (fun c => !isQuote c) cs
      (List.range k).map (fun i => (some (cs.take (k - i)), k - i))

/-- Backtracking matcher for a regex element sequence anchored at the
front of a suffix: the first capture and the consumed length, preferring
earlier candidates (leftmost-first semantics of the regex crate). -/
def matchSeq : List RElem → List Char → Option (Option (List Char) × Nat)
  | [], _ => some (none, 0)
  | e :: es, cs =>
      (candidates e cs).findSome? (fun cand =>
        (matchSeq es (cs.drop cand.2)).map (fun pr => (cand.1 <|> pr.1, cand.2 + pr.2)))

/-- Leftmost match of a pattern: try every start position left to right;
return the capture and the remaining suffix after the match. -/
def leftmostMatch (p : List RElem) : List Char → Option (List Char × List Char)
  | [] => (matchSeq p []).map (fun capn => (capn.1.getD [], []))
  | c :: tail =>
      match matchSeq p (c :: tail) with
      | some capn => some (capn.1.getD [], (c :: tail).drop capn.2)
      | none => leftmostMatch p tail

/-- Iterated leftmost matching (Regex::captures_iter), fuelled; every
pattern used here consumes at least the length of its literal head, so
the fuel never runs out on them. -/
def capturesGo (p : List RElem) : Nat → List Char → List (List Char)
  | 0, _ => []
  | fuel + 1, cs =>
      match leftmostMatch p cs with
      | none => []
      | some (cap, rest) => cap :: capturesGo p fuel rest

/-- All captures of a pattern over a text, left to right. -/
def capturesAll (p : List RElem) (cs : List Char) : List (List Char) :=
  capturesGo p (cs.length + 1) cs

/-- Pattern: import then whitespace then a lazy gap then from, then a
quoted capture. -/
def patStaticImport : List RElem :=
  [.lit "import".data, .wsPlus, .lazyAny, .lit "from".data, .wsPlus,
    .quoteCh, .capSpec, .quoteCh]

/-- Pattern: import, optional whitespace, an opening parenthesis,
optional whitespace, then a quoted capture. -/
def patDynamicImport : List RElem :=
  [.lit "import".data, .wsStar, .lit "(".data, .wsStar, .quoteCh, .capSpec, .quoteCh]

/-- Pattern: export then whitespace then a lazy gap then from, then a
quoted capture. -/
def patExportFrom : List RElem :=
  [.lit "export".data, .wsPlus, .lazyAny, .lit "from".data, .wsPlus,
    .quoteCh, .capSpec, .quoteCh]

/-- The ordered pattern list of parse_dependencies. -/
def import_patterns : List (List RElem) :=
  [patStaticImport, patDynamicImport, patExportFrom]

/-- ModuleLoaderConfig from src/module_loader.rs (base_dir as a string;
the default current-directory value is environment-dependent and is
supplied explicitly in each instance here). -/
structure ModuleLoaderConfig where
  cache_enabled : Bool
  allow_remote : Bool
  import_map : Option ImportMap
  base_dir : String
deriving DecidableEq

/-- ModuleLoader from src/module_loader.rs: the immutable part.  The
mutable cache and loading list live in LoaderState and are threaded
explicitly. -/
structure ModuleLoader where
  permissions : Permissions
  config : ModuleLoaderConfig

/-- The loader's shared mutable state: the module cache (an association
list standing for the HashMap, newest binding first) and the Loading
Set vector. -/
structure LoaderState where
  cache : List (String × ResolvedModule)
  loading : List String
deriving DecidableEq

/-- ModuleCache::get. -/
def cacheGet (cache : List (String × ResolvedModule)) (specifier : String) :
    Option ResolvedModule :=
  (cache.find? (fun kv => kv.1 == specifier)).map (fun kv => kv.2)

/-- ModuleCache::insert (the newest binding shadows any older one, as a
HashMap insert overwrites). -/
def cacheInsert (cache : List (String × ResolvedModule)) (specifier : String)
    (m : ResolvedModule) : List (String × ResolvedModule) :=
  (specifier, m) :: cache

/-- Node-style probe list of resolve_bare_specifier. -/
def bareExtList : List String :=
  [".js", ".mjs", ".ts", "/index.js", "/index.mjs"]

/-- Body of the bare-specifier loop at one ancestor directory: probe the
extension list, then package.json's main field. -/
def tryBareDir (env : FsEnv) (specifier : String) (dir : String) : Option String :=
  let node_modules := joinPath (joinPath dir "node_modules") specifier
  match bareExtList.findSome? (fun ext =>
      let path := node_modules ++ ext
      if env.fileExists path then some path else none) with
  | some p => some p
  | none =>
      let package_json := joinPath node_modules "package.json"
      if env.fileExists package_json then
        match env.readFile package_json with
        | .ok content =>
            match env.jsonMain content with
            | some mainStr =>
                let main_path := joinPath node_modules mainStr
                if env.fileExists main_path then some main_path else none
            | none => none
        | .error _ => none
      else none

/-- Render an ancestor directory from its components. -/
def dirOfComps (abs : Bool) (comps : List (List Char)) : String :=
  String.mk ((if abs then ['/'] else []) ++ joinSlash comps)

/-- The ancestor walk of resolve_bare_specifier: run the body on the
current directory, then pop one component (PathBuf::pop) and repeat;
stop after the directory with no component left. -/
def bareWalk (env : FsEnv) (specifier : String) (abs : Bool) :
    List (List Char) → Option String
  | comps =>
      match tryBareDir env specifier (dirOfComps abs comps) with
      | some p => some p
      | none =>
          if h : comps.isEmpty then none
          else bareWalk env specifier abs comps.dropLast
termination_by comps => comps.length
decreasing_by
  show comps.dropLast.length < comps.length
  have hne : comps ≠ [] := by simpa [List.isEmpty_iff] using h
  have h2 := List.length_pos.mpr hne
  simp only [List.length_dropLast]
  omega

/-- ModuleLoader::resolve_bare_specifier. -/
def ModuleLoader.resolve_bare_specifier (ml : ModuleLoader) (specifier : String)
    (env : FsEnv) : Except ModuleError String :=
  match bareWalk env specifier (startsWithSlash ml.config.base_dir.data)
      (splitPath ml.config.base_dir.data) with
  | some p => .ok p
  | none => .error (.notFound ("Cannot find module " ++ sq ++ specifier ++ sq))

/-- ModuleLoader::resolve: import map first, then remote URLs (gated by
allow_remote), absolute paths unchanged, relative paths against the
referrer directory or the base directory, and bare specifiers through
the ancestor walk. -/
def ModuleLoader.resolve (ml : ModuleLoader) (specifier : String)
    (referrer : Option String) (env : FsEnv) : Except ModuleError String :=
  match ml.config.import_map.bind (fun im => im.resolve specifier) with
  | some resolved => .ok resolved
  | none =>
      if starts_with specifier "https://" || starts_with specifier "http://" then
        if !ml.config.allow_remote then
          .error (.permissionDenied "Remote modules are disabled")
        else .ok specifier
      else if startsWithSlash specifier.data then .ok specifier
      else if starts_with specifier "./" || starts_with specifier "../" then
        .ok (match referrer with
          | some referrer_path =>
              if starts_with referrer_path "http" then
                let url_path :=
                  String.mk (joinSlash (((splitAll '/' referrer_path.data).reverse).drop 1))
                url_path ++ "/" ++ String.mk (trimDotSlash specifier.data)
              else
                let referrer_dir := (parentPath referrer_path).getD "."
                normalize_path (joinPath referrer_dir specifier)
          | none => normalize_path (joinPath ml.config.base_dir specifier))
      else ml.resolve_bare_specifier specifier env

/-- ModuleLoader::load_local: read permission gate, file read, module
type from the extension (without its dot, as Path::extension yields it),
defaulting to ESModule when there is no extension. -/
def ModuleLoader.load_local (ml : ModuleLoader) (path : String) (env : FsEnv) :
    Except ModuleError ModuleSource :=
  match ml.permissions.check_read path with
  | .error e => .error (.permissionDenied e.toMessage)
  | .ok _ =>
      match env.readFile path with
      | .error ioMsg => .error (.resolutionError ("Failed to read file: " ++ ioMsg))
      | .ok code =>
          let module_type := ((pathExtension path).map ModuleType.from_extension).getD .esModule
          .ok ⟨path, code, module_type⟩

/-- ModuleLoader::load_remote: network permission on the full URL, URL
parse, network permission on the host, then the unimplemented-fetch
error. -/
def ModuleLoader.load_remote (ml : ModuleLoader) (url : String) (env : FsEnv) :
    Except ModuleError ModuleSource :=
  match ml.permissions.check_net url with
  | .error e => .error (.permissionDenied e.toMessage)
  | .ok _ =>
      if !env.urlParseOk url then .error (.invalidSpecifier url)
      else
        let host := (env.urlHost url).getD "unknown"
        match ml.permissions.check_net host with
        | .error e => .error (.permissionDenied e.toMessage)
        | .ok _ =>
            .error (.networkError ("Remote module loading not yet implemented: " ++ url))

/-- ModuleLoader::load: cache hit returns the cached source (when
caching is enabled); otherwise dispatch on the http prefix to the remote
or local path.  The cache is only read here, never written. -/
def ModuleLoader.load (ml : ModuleLoader) (specifier : String) (st : LoaderState)
    (env : FsEnv) : Except ModuleError ModuleSource :=
  match (if ml.config.cache_enabled then cacheGet st.cache specifier else none) with
  | some cached => .ok cached.source
  | none =>
      if starts_with specifier "http" then ml.load_remote specifier env
      else ml.load_local specifier env

/-- ModuleLoader::parse_dependencies: for each of the three patterns in
order, append all of its captures over the source text. -/
def ModuleLoader.parse_dependencies (_ml : ModuleLoader) (source : ModuleSource) :
    List String :=
  import_patterns.foldl
    (fun dependencies pat => dependencies ++ (capturesAll pat source.code.data).map String.mk)
    []

/-- ModuleLoader::load_module: the full pipeline with the state threaded
explicitly — cycle check on the raw specifier, resolution, cache lookup,
Loading-Set push, source load, dependency extraction, cache insert,
Loading-Set removal.  The early error returns leave the state exactly as
the Rust early returns leave the shared state. -/
def ModuleLoader.load_module (ml : ModuleLoader) (specifier : String)
    (referrer : Option String) (st : LoaderState) (env : FsEnv) :
    Except ModuleError ResolvedModule × LoaderState :=
  if st.loading.contains specifier then
    (.error (.circularDependency specifier), st)
  else
    match ml.resolve specifier referrer env with
    | .error e => (.error e, st)
    | .ok resolved_specifier =>
        match (if ml.config.cache_enabled then cacheGet st.cache resolved_specifier else none) with
        | some cached => (.ok cached, st)
        | none =>
            let st1 : LoaderState := { st with loading := st.loading ++ [resolved_specifier] }
            match ml.load resolved_specifier st1 env with
            | .error e => (.error e, st1)
            | .ok source =>
                let dependencies := ml.parse_dependencies source
                let module : ResolvedModule := ⟨resolved_specifier, source, dependencies⟩
                let st2 : LoaderState :=
                  if ml.config.cache_enabled then
                    { st1 with cache := cacheInsert st1.cache resolved_specifier module }
                  else st1
                let st3 : LoaderState :=
                  { st2 with loading := st2.loading.filter (fun s => !(s == resolved_specifier)) }
                (.ok module, st3)

/-- Membership characterization of is_granted on GrantedPartial. -/
theorem is_granted_grantedPartial (paths : List String) (r : String) :
    PermissionState.is_granted (.grantedPartial paths) (some r) = true ↔
      ∃ p ∈ paths, r = p ∨ starts_with r p = true := by
  simp only [PermissionState.is_granted, Bool.or_eq_true, List.any_eq_true]
  constructor
  · rintro (hc | ⟨p, hp, hs⟩)
    · exact ⟨r, by simpa using hc, Or.inl rfl⟩
    · exact ⟨p, hp, Or.inr hs⟩
  · rintro ⟨p, hp, hpr⟩
    rcases hpr with rfl | hs
    · exact Or.inl (by simpa using hp)
    · exact Or.inr ⟨p, hp, hs⟩

/-- C3: for a category in state GrantedPartial(L), check(r) succeeds iff r
equals an entry of L or begins (textually) with an entry of L; with
L = ["/tmp"] the checks of "/tmp", "/tmp/file.txt" and "/tmpfoo" all
succeed and the check of "/etc/passwd" fails with a Denied error. -/
theorem granted_partial_check_prefix_rule :
    (∀ (paths : List String) (r : String),
        PermissionState.is_granted (.grantedPartial paths) (some r) = true ↔
          ∃ p ∈ paths, r = p ∨ starts_with r p = true) ∧
    ReadPermission.check ⟨.grantedPartial ["/tmp"]⟩ "/tmp" = .ok () ∧
    ReadPermission.check ⟨.grantedPartial ["/tmp"]⟩ "/tmp/file.txt" = .ok () ∧
    ReadPermission.check ⟨.grantedPartial ["/tmp"]⟩ "/tmpfoo" = .ok () ∧
    ReadPermission.check ⟨.grantedPartial ["/tmp"]⟩ "/etc/passwd" =
      .error (.denied ("Requires read access to " ++ sq ++ "/etc/passwd" ++ sq)) :=
  ⟨is_granted_grantedPartial, rfl, rfl, rfl, rfl⟩

/-- C1 counterexample: after grant_all, check("/etc/passwd") succeeds, but a
subsequent subset grant grant_paths(["/tmp"]) overwrites the state and the
same check now fails — a grant operation that narrows access. -/
theorem subset_grant_after_grant_all_revokes :
    ReadPermission.check (ReadPermission.grant_all ReadPermission.new) "/etc/passwd" = .ok () ∧
    ReadPermission.check
        (ReadPermission.grant_paths (ReadPermission.grant_all ReadPermission.new) ["/tmp"])
        "/etc/passwd" =
      .error (.denied ("Requires read access to " ++ sq ++ "/etc/passwd" ++ sq)) :=
  ⟨rfl, rfl⟩

/-- C1 (amended): grant_all only widens access in every category — any
resource whose check succeeded before still succeeds after — while every
subset grant (grant_paths, grant_addresses, grant_vars, grant_commands)
overwrites the state irrespective of the previous state (so it can revoke
access to resources outside the subset), granting afterwards exactly the
resources accepted by GrantedPartial of that subset. -/
theorem grant_operations_widening :
    (∀ (p : ReadPermission) (r : String),
        p.check r = .ok () → (p.grant_all).check r = .ok ()) ∧
    (∀ (p : WritePermission) (r : String),
        p.check r = .ok () → (p.grant_all).check r = .ok ()) ∧
    (∀ (p : NetPermission) (r : String),
        p.check r = .ok () → (p.grant_all).check r = .ok ()) ∧
    (∀ (p : EnvPermission) (r : String),
        p.check r = .ok () → (p.grant_all).check r = .ok ()) ∧
    (∀ (p : RunPermission) (r : String),
        p.check r = .ok () → (p.grant_all).check r = .ok ()) ∧
    (∀ (p q : ReadPermission) (l : List String), p.grant_paths l = q.grant_paths l) ∧
    (∀ (p q : WritePermission) (l : List String), p.grant_paths l = q.grant_paths l) ∧
    (∀ (p q : NetPermission) (l : List String),
        p.grant_addresses l = q.grant_addresses l) ∧
    (∀ (p q : EnvPermission) (l : List String), p.grant_vars l = q.grant_vars l) ∧
    (∀ (p q : RunPermission) (l : List String),
        p.grant_commands l = q.grant_commands l) ∧
    (∀ (p : ReadPermission) (l : List String) (r : String),
        (p.grant_paths l).check r = .ok () ↔
          PermissionState.is_granted (.grantedPartial l) (some r) = true) ∧
    (∀ (p : WritePermission) (l : List String) (r : String),
        (p.grant_paths l).check r = .ok () ↔
          PermissionState.is_granted (.grantedPartial l) (some r) = true) ∧
    (∀ (p : NetPermission) (l : List String) (r : String),
        (p.grant_addresses l).check r = .ok () ↔
          PermissionState.is_granted (.grantedPartial l) (some r) = true) ∧
    (∀ (p : EnvPermission) (l : List String) (r : String),
        (p.grant_vars l).check r = .ok () ↔
          PermissionState.is_granted (.grantedPartial l) (some r) = true) ∧
    (∀ (p : RunPermission) (l : List String) (r : String),
        (p.grant_commands l).check r = .ok () ↔
          PermissionState.is_granted (.grantedPartial l) (some r) = true) := by
  refine ⟨fun p r _ => rfl, fun p r _ => rfl, fun p r _ => rfl, fun p r _ => rfl,
    fun p r _ => rfl, fun p q l => rfl, fun p q l => rfl, fun p q l => rfl,
    fun p q l => rfl, fun p q l => rfl, fun p l r => ?_, fun p l r => ?_,
    fun p l r => ?_, fun p l r => ?_, fun p l r => ?_⟩
  · unfold ReadPermission.check ReadPermission.grant_paths
    by_cases h : PermissionState.is_granted (.grantedPartial l) (some r) = true
    · simp [h]
    · simp [h]
  · unfold WritePermission.check WritePermission.grant_paths
    by_cases h : PermissionState.is_granted (.grantedPartial l) (some r) = true
    · simp [h]
    · simp [h]
  · unfold NetPermission.check NetPermission.grant_addresses
    by_cases h : PermissionState.is_granted (.grantedPartial l) (some r) = true
    · simp [h]
    · simp [h]
  · unfold EnvPermission.check EnvPermission.grant_vars
    by_cases h : PermissionState.is_granted (.grantedPartial l) (some r) = true
    · simp [h]
    · simp [h]
  · unfold RunPermission.check RunPermission.grant_commands
    by_cases h : PermissionState.is_granted (.grantedPartial l) (some r) = true
    · simp [h]
    · simp [h]

/-- Witness for grant_operations_widening at a concrete input. -/
theorem grant_operations_widening_witness :
    (ReadPermission.grant_all ⟨.granted⟩).check "/x" = .ok () :=
  grant_operations_widening.1 ⟨.granted⟩ "/x" rfl

/-- C10: the fourth state PromptPending makes is_granted return false for
every resource (present or absent), so at the check interface it is
indistinguishable from Denied: every check fails with a Denied error. -/
theorem prompt_pending_indistinguishable_from_denied :
    (∀ o : Option String, PermissionState.is_granted .promptPending o = false) ∧
    (∀ o : Option String,
        PermissionState.is_granted .promptPending o = PermissionState.is_granted .denied o) ∧
    (∀ r : String,
        ReadPermission.check ⟨.promptPending⟩ r =
          .error (.denied ("Requires read access to " ++ sq ++ r ++ sq))) ∧
    (∀ r : String, ReadPermission.check ⟨.promptPending⟩ r = ReadPermission.check ⟨.denied⟩ r) :=
  ⟨fun o => by cases o <;> rfl, fun o => by cases o <;> rfl, fun _ => rfl, fun _ => rfl⟩

deriving instance DecidableEq for Except

/-- Environment with no files and no readable content: every read fails,
no path exists.  Used where loading must fail or where the file system
is never consulted. -/
def envEmpty : FsEnv :=
  { readFile := fun _ => .error "No such file or directory",
    fileExists := fun _ => false,
    jsonMain := fun _ => none,
    urlParseOk := fun _ => true,
    urlHost := fun _ => none }

/-- Environment holding exactly one readable file, /home/user/app.js. -/
def envAppJs : FsEnv :=
  { readFile := fun p =>
      if p == "/home/user/app.js" then .ok "console" else .error "No such file or directory",
    fileExists := fun _ => false,
    jsonMain := fun _ => none,
    urlParseOk := fun _ => true,
    urlHost := fun _ => none }

/-- Loader with every permission granted: caching on, remote allowed,
no import map, base directory /proj. -/
def loaderAllowAll : ModuleLoader :=
  { permissions := Permissions.allow_all,
    config := { cache_enabled := true, allow_remote := true, import_map := none,
                base_dir := "/proj" } }

/-- Loader with the default all-denied permissions and the same
configuration. -/
def loaderDenied : ModuleLoader :=
  { permissions := Permissions.mkDefault,
    config := { cache_enabled := true, allow_remote := true, import_map := none,
                base_dir := "/proj" } }

/-- Source text whose dynamic import textually precedes its
static import. -/
def srcOrder : ModuleSource :=
  ⟨"test.js", "import(\"./d.js\")\nimport x from \"./s.js\"", .esModule⟩

/-- Source text importing the same specifier twice. -/
def srcDup : ModuleSource :=
  ⟨"t.js", "import a from \"x\"\nimport b from \"x\"", .esModule⟩

/-- Index of the first occurrence of a needle in a haystack. -/
def subIndex (needle : List Char) : List Char → Option Nat
  | [] => if needle.isPrefixOf ([] : List Char) then some 0 else none
  | c :: t =>
      if needle.isPrefixOf (c :: t) then some 0
      else (subIndex needle t).map (fun n => n + 1)

/-- C7: when the raw specifier is already in the Loading Set, load_module
fails with CircularDependency(specifier) before resolving, and the state
(cache and Loading Set) is returned unchanged. -/
theorem load_module_circular_short_circuit
    (ml : ModuleLoader) (A : String) (referrer : Option String)
    (st : LoaderState) (env : FsEnv) (h : st.loading.contains A = true) :
    ml.load_module A referrer st env = (.error (.circularDependency A), st) := by
  unfold ModuleLoader.load_module
  rw [if_pos h]

/-- Witness for load_module_circular_short_circuit at a concrete loader
and state. -/
theorem load_module_circular_short_circuit_witness :
    loaderAllowAll.load_module "a" none ⟨[], ["a"]⟩ envEmpty =
      (.error (.circularDependency "a"), ⟨[], ["a"]⟩) :=
  load_module_circular_short_circuit loaderAllowAll "a" none ⟨[], ["a"]⟩ envEmpty (by decide)

/-- C9: every load_module call that returns an error leaves the module
cache exactly as it was: entries are created only on full success. -/
theorem load_module_error_preserves_cache
    (ml : ModuleLoader) (specifier : String) (referrer : Option String)
    (st : LoaderState) (env : FsEnv) (e : ModuleError) (st2 : LoaderState)
    (h : ml.load_module specifier referrer st env = (.error e, st2)) :
    st2.cache = st.cache := by
  unfold ModuleLoader.load_module at h
  by_cases hc : st.loading.contains specifier
  · rw [if_pos hc] at h
    injection h with h1 h2
    rw [← h2]
  · rw [if_neg hc] at h
    cases hres : ml.resolve specifier referrer env with
    | error er =>
        rw [hres] at h
        injection h with h1 h2
        rw [← h2]
    | ok rs =>
        rw [hres] at h
        dsimp only at h
        cases hcl : (if ml.config.cache_enabled then cacheGet st.cache rs else none) with
        | some m =>
            rw [hcl] at h
            injection h with h1 h2
            exact Except.noConfusion h1
        | none =>
            rw [hcl] at h
            dsimp only at h
            cases hld : ml.load rs { st with loading := st.loading ++ [rs] } env with
            | error e2 =>
                rw [hld] at h
                injection h with h1 h2
                rw [← h2]
            | ok src =>
                rw [hld] at h
                dsimp only at h
                injection h with h1 h2
                exact Except.noConfusion h1

/-- Witness for load_module_error_preserves_cache: the failed load of
/a.js under denied permissions leaves the (empty) cache unchanged. -/
theorem load_module_error_preserves_cache_witness :
    (LoaderState.mk [] ["/a.js"]).cache = (LoaderState.mk [] ([] : List String)).cache :=
  load_module_error_preserves_cache loaderDenied "/a.js" none ⟨[], []⟩ envEmpty
    (.permissionDenied ("Permission denied: Requires read access to " ++ sq ++ "/a.js" ++ sq))
    ⟨[], ["/a.js"]⟩ (by decide)

/-- C2 evidence: a failed source load leaves the resolved specifier in
the Loading Set (the Rust early return skips the removal), so an
immediate retry of the same specifier is misreported as
CircularDependency. -/
theorem failed_load_leaves_loading_set_entry :
    loaderDenied.load_module "/a.js" none ⟨[], []⟩ envEmpty =
      (.error (.permissionDenied
          ("Permission denied: Requires read access to " ++ sq ++ "/a.js" ++ sq)),
        ⟨[], ["/a.js"]⟩) ∧
    loaderDenied.load_module "/a.js" none ⟨[], ["/a.js"]⟩ envEmpty =
      (.error (.circularDependency "/a.js"), ⟨[], ["/a.js"]⟩) :=
  ⟨by decide, by decide⟩

/-- C4 evidence: from_extension maps the dotted extensions as the claim
says, but load_local feeds it the extension without its dot (as
Path::extension yields it), so a local .js file comes back Unknown, not
ESModule. -/
theorem local_load_module_type_mismatch :
    loaderAllowAll.load_local "/home/user/app.js" envAppJs =
      .ok ⟨"/home/user/app.js", "console", ModuleType.unknown⟩ ∧
    pathExtension "/home/user/app.js" = some "js" ∧
    ModuleType.from_extension "js" = .unknown ∧
    ModuleType.from_extension ".js" = .esModule ∧
    ModuleType.from_extension ".mjs" = .esModule ∧
    ModuleType.from_extension ".cjs" = .commonJS ∧
    ModuleType.from_extension ".json" = .json ∧
    ModuleType.from_extension ".ts" = .typeScript :=
  ⟨by decide, by decide, by decide, by decide, by decide, by decide, by decide, by decide⟩

/-- C5 counterexample: in srcOrder the dynamic import ./d.js occurs at
text index 8, before the static import ./s.js at index 32, yet
parse_dependencies returns the static match first — the list is not in
order of first occurrence in the source text. -/
theorem parse_dependencies_not_occurrence_ordered :
    loaderAllowAll.parse_dependencies srcOrder = ["./s.js", "./d.js"] ∧
    subIndex "./d.js".data srcOrder.code.data = some 8 ∧
    subIndex "./s.js".data srcOrder.code.data = some 32 :=
  ⟨by decide, by decide, by decide⟩

/-- C5 (amended): parse_dependencies returns the captures grouped by
pattern — every static import-from match in source order, then every
dynamic import match, then every export-from match — with duplicates
preserved. -/
theorem parse_dependencies_grouped_by_pattern :
    (∀ (ml : ModuleLoader) (source : ModuleSource),
        ml.parse_dependencies source =
          (capturesAll patStaticImport source.code.data).map String.mk ++
            ((capturesAll patDynamicImport source.code.data).map String.mk ++
              (capturesAll patExportFrom source.code.data).map String.mk)) ∧
    loaderAllowAll.parse_dependencies srcDup = ["x", "x"] := by
  constructor
  · intro ml source
    simp [ModuleLoader.parse_dependencies, import_patterns]
  · decide

/-- C8: the three resolver examples of the spec, and the equivalence of
the code\'s path normalization with the spec\'s stack machine (each ..
pops the most recent component, a no-op on an empty stack, the leading
absolute marker preserved). -/
theorem resolver_examples_and_normalization :
    loaderAllowAll.resolve "./utils.js" (some "/home/user/main.js") envEmpty =
        .ok "/home/user/utils.js" ∧
    loaderAllowAll.resolve "../shared/lib.js" (some "/home/user/main.js") envEmpty =
        .ok "/home/shared/lib.js" ∧
    loaderAllowAll.resolve "/usr/local/lib.js" none envEmpty = .ok "/usr/local/lib.js" ∧
    (∀ path : String, normalize_path path = specNormalize path) :=
  ⟨by decide, by decide, by decide, normalize_path_eq_spec⟩

end Ferrum

